/-
Verification of the streaming equi-depth histogram builder
(src/coprocessor/statistics/histogram.rs).

The Rust code is shallowly embedded: `Vec<u8>` byte strings become
`List Nat`, the `i64` counters become `Int` (every quantity reachable
here is far below 2^63, so wrap-around is immaterial to the claims),
and the in-place mutations of `iterate` become a pure state-passing
function.  Field and function names follow the source.
-/
import Mathlib

/-- Bucket of the histogram: `struct Bucket` (histogram.rs lines 26-31). -/
structure Bucket where
  count : Int
  upper_bound : List Nat
  lower_bound : List Nat
  repeats : Int
deriving Repr, DecidableEq

/-- `Bucket::new` (line 34): fields in the source argument order. -/
def Bucket.new (count : Int) (upper_bound lower_bound : List Nat) (repeats : Int) : Bucket :=
  { count := count, upper_bound := upper_bound, lower_bound := lower_bound, repeats := repeats }

/-- `Bucket::insert_repeated_item` (lines 43-46). -/
def Bucket.insert_repeated_item (b : Bucket) : Bucket :=
  { b with count := b.count + 1, repeats := b.repeats + 1 }

/-- `Bucket::insert_item` (lines 48-52). -/
def Bucket.insert_item (b : Bucket) (data : List Nat) : Bucket :=
  { b with upper_bound := data, count := b.count + 1, repeats := 1 }

/-- `struct Histogram` (lines 56-68). -/
structure Histogram where
  id : Int
  ndv : Int
  buckets : List Bucket
  per_bucket_limit : Int
  buckets_num : Nat
deriving Repr, DecidableEq

/-- `Histogram::new` (lines 71-77): `Default` zero-fills, then
`per_bucket_limit`, `buckets_num` and `id` are set. -/
def Histogram.new (id : Int) (buckets_num : Nat) : Histogram :=
  { id := id, ndv := 0, buckets := [], per_bucket_limit := 1, buckets_num := buckets_num }

/-- Apply `f` to the last element of a list (the embedding of
`self.buckets.last_mut()` followed by a mutation).  On `[]` it is the
identity; theorem `C10_iterate_unwrap_safe` shows the one call site
guarded by `!is_last_bucket_full()` (whose Rust code `unwrap`s) never
reaches the `[]` case. -/
def updateLast (f : Bucket → Bucket) : List Bucket → List Bucket
  | [] => []
  | [b] => [f b]
  | b :: b' :: bs => b :: updateLast f (b' :: bs)

/-- `Histogram::is_last_bucket_full` (lines 108-119).  The source reads
`buckets[len-1]` and `buckets[len-2]`; here the last two elements are
exposed by matching on the reversed list. -/
def Histogram.is_last_bucket_full (h : Histogram) : Bool :=
  match h.buckets.reverse with
  | [] => true
  | [b] => decide (h.per_bucket_limit ≤ b.count)
  | b :: a :: _ => decide (h.per_bucket_limit ≤ b.count - a.count)

/-- One merge round of `Histogram::merge_buckets` (lines 124-138): every
two neighbouring buckets collapse into one; an odd trailing bucket is
kept as is. -/
def mergePairs : List Bucket → List Bucket
  | [] => []
  | [b] => [b]
  | b1 :: b2 :: rest =>
      Bucket.new b2.count b2.upper_bound b1.lower_bound b2.repeats :: mergePairs rest

/-- `Histogram::merge_buckets` (lines 122-141). -/
def Histogram.merge_buckets (h : Histogram) : Histogram :=
  { h with buckets := mergePairs h.buckets, per_bucket_limit := h.per_bucket_limit * 2 }

/-- The compaction check of `iterate` (lines 90-92). -/
def Histogram.afterCompaction (h : Histogram) : Histogram :=
  if h.buckets_num ≤ h.buckets.length ∧ h.is_last_bucket_full = true then
    h.merge_buckets
  else h

/-- The placement step of `iterate` (lines 94-104): extend the last
bucket when it is not full, otherwise append a fresh bucket carrying the
running cumulative count. -/
def Histogram.place (h : Histogram) (data : List Nat) : Histogram :=
  if h.is_last_bucket_full = false then
    { h with buckets := updateLast (Bucket.insert_item · data) h.buckets }
  else
    let count : Int := 1 + (match h.buckets.getLast? with | some b => b.count | none => 0)
    { h with buckets := h.buckets ++ [Bucket.new count data data 1] }

/-- The repeat check of `iterate` (lines 80-88): does the incoming value
equal the last bucket's `upper_bound`? -/
def Histogram.repeatHit (h : Histogram) (data : List Nat) : Bool :=
  match h.buckets.getLast? with
  | some bucket => bucket.upper_bound == data
  | none => false

/-- `Histogram::iterate` (lines 79-105). -/
def Histogram.iterate (h : Histogram) (data : List Nat) : Histogram :=
  if h.repeatHit data then
    { h with buckets := updateLast Bucket.insert_repeated_item h.buckets }
  else
    (({ h with ndv := h.ndv + 1 } : Histogram).afterCompaction).place data

/-- Feed a whole input sequence through `iterate`. -/
def Histogram.iterateAll (h : Histogram) (xs : List (List Nat)) : Histogram :=
  xs.foldl Histogram.iterate h

/-- Number of entries of `xs` that differ from their immediate predecessor,
the running predecessor being `prev`. -/
def countChanges (prev : List Nat) : List (List Nat) → Nat
  | [] => 0
  | x :: xs => (if x = prev then 0 else 1) + countChanges x xs

/-- Number of entries that differ from the immediately preceding entry
(the first entry always counts). -/
def ndvOf : List (List Nat) → Nat
  | [] => 0
  | x :: xs => 1 + countChanges x xs

/-- Whether a call `iterate data` on state `h` executes `merge_buckets`:
the repeat check must miss and the compaction condition (line 90) must
hold.  `ndv` does not enter the condition, so it is read off `h`. -/
def Histogram.mergeFired (h : Histogram) (data : List Nat) : Bool :=
  !h.repeatHit data &&
    (decide (h.buckets_num ≤ h.buckets.length) && h.is_last_bucket_full)

/-- Total number of `merge_buckets` executions over an input sequence. -/
def Histogram.countMerges : Histogram → List (List Nat) → Nat
  | _, [] => 0
  | h, d :: ds => (if h.mergeFired d then 1 else 0) + (h.iterate d).countMerges ds

/-- Invariant tying a state to the number `n` of values ingested so far:
bucket counts are non-decreasing left to right, and the bucket sequence is
either empty with `n = 0` or ends in a bucket whose cumulative `count` is
exactly `n`. -/
def countInv (h : Histogram) (n : Nat) : Prop :=
  List.Chain' (fun x y => x.count ≤ y.count) h.buckets ∧
    ((h.buckets = [] ∧ n = 0) ∨ ∃ l b, h.buckets = l ++ [b] ∧ b.count = (n : Int))

/-! ### Helper lemmas about `updateLast` and `mergePairs` -/

theorem updateLast_concat (f : Bucket → Bucket) :
    ∀ (l : List Bucket) (b : Bucket), updateLast f (l ++ [b]) = l ++ [f b]
  | [], b => rfl
  | [a], b => rfl
  | a :: c :: l, b => by
      have ih := updateLast_concat f (c :: l) b
      simpa [updateLast] using ih

theorem mergePairs_length : ∀ l : List Bucket, (mergePairs l).length = (l.length + 1) / 2
  | [] => rfl
  | [_] => by simp [mergePairs]
  | _ :: _ :: rest => by
      have ih := mergePairs_length rest
      simp [mergePairs, ih]
      omega

theorem mergePairs_ne_nil {l : List Bucket} (h : l ≠ []) : mergePairs l ≠ [] := by
  have hlen := mergePairs_length l
  intro hnil
  rw [hnil] at hlen
  have : 0 < l.length := List.length_pos.mpr h
  simp at hlen
  omega

theorem getLast?_mergePairs :
    ∀ (l : List Bucket) (b : Bucket), l.getLast? = some b →
      ∃ b', (mergePairs l).getLast? = some b' ∧ b'.count = b.count ∧
        b'.upper_bound = b.upper_bound ∧ b'.repeats = b.repeats
  | [], b, h => by simp at h
  | [a], b, h => by
      simp at h
      exact ⟨a, by simp [mergePairs], by rw [h], by rw [h], by rw [h]⟩
  | [b1, b2], b, h => by
      simp [List.getLast?] at h
      exact ⟨Bucket.new b2.count b2.upper_bound b1.lower_bound b2.repeats,
        by simp [mergePairs], by rw [h]; rfl, by rw [h]; rfl, by rw [h]; rfl⟩
  | b1 :: b2 :: c :: rest, b, h => by
      rw [List.getLast?_cons_cons, List.getLast?_cons_cons] at h
      obtain ⟨b', hb', hc, hu, hr⟩ := getLast?_mergePairs (c :: rest) b h
      refine ⟨b', ?_, hc, hu, hr⟩
      have hne : mergePairs (c :: rest) ≠ [] := mergePairs_ne_nil (by simp)
      obtain ⟨y, ys, hys⟩ := List.exists_cons_of_ne_nil hne
      show (mergePairs (b1 :: b2 :: c :: rest)).getLast? = some b'
      rw [show mergePairs (b1 :: b2 :: c :: rest)
          = Bucket.new b2.count b2.upper_bound b1.lower_bound b2.repeats
            :: mergePairs (c :: rest) from rfl, hys,
        List.getLast?_cons_cons, ← hys, hb']

theorem mergePairs_getElem? :
    ∀ (l : List Bucket) (i : Nat) (b1 b2 : Bucket),
      l[2 * i]? = some b1 → l[2 * i + 1]? = some b2 →
      (mergePairs l)[i]? = some (Bucket.new b2.count b2.upper_bound b1.lower_bound b2.repeats)
  | [], i, b1, b2, h1, h2 => by simp at h1
  | [a], i, b1, b2, h1, h2 => by
      rw [List.getElem?_eq_some_iff] at h2
      obtain ⟨hlt, _⟩ := h2
      simp at hlt
  | a :: c :: rest, 0, b1, b2, h1, h2 => by
      simp at h1 h2
      subst h1; subst h2
      simp [mergePairs]
  | a :: c :: rest, i + 1, b1, b2, h1, h2 => by
      have e1 : (a :: c :: rest)[2 * (i + 1)]? = rest[2 * i]? := by
        have : 2 * (i + 1) = 2 * i + 1 + 1 := by omega
        rw [this]
        simp
      have e2 : (a :: c :: rest)[2 * (i + 1) + 1]? = rest[2 * i + 1]? := by
        have : 2 * (i + 1) + 1 = 2 * i + 1 + 1 + 1 := by omega
        rw [this]
        simp
      rw [e1] at h1
      rw [e2] at h2
      have ih := mergePairs_getElem? rest i b1 b2 h1 h2
      simpa [mergePairs] using ih

theorem mergePairs_getLast?_odd :
    ∀ l : List Bucket, l.length % 2 = 1 → (mergePairs l).getLast? = l.getLast?
  | [], h => by simp at h
  | [a], _ => rfl
  | [b1, b2], h => by simp at h
  | b1 :: b2 :: c :: rest, h => by
      have hodd : (c :: rest).length % 2 = 1 := by
        simp only [List.length_cons] at h ⊢
        omega
      have ih := mergePairs_getLast?_odd (c :: rest) hodd
      have hne : mergePairs (c :: rest) ≠ [] := mergePairs_ne_nil (by simp)
      obtain ⟨y, ys, hys⟩ := List.exists_cons_of_ne_nil hne
      show (Bucket.new b2.count b2.upper_bound b1.lower_bound b2.repeats
          :: mergePairs (c :: rest)).getLast? = _
      rw [hys, List.getLast?_cons_cons, ← hys, ih, List.getLast?_cons_cons,
        List.getLast?_cons_cons]

theorem chain'_mergePairs {R : Bucket → Bucket → Prop}
    (Hpair : ∀ b1 b2 c1 c2, R b1 b2 → R b2 c1 → R c1 c2 →
      R (Bucket.new b2.count b2.upper_bound b1.lower_bound b2.repeats)
        (Bucket.new c2.count c2.upper_bound c1.lower_bound c2.repeats))
    (Hodd : ∀ b1 b2 c, R b1 b2 → R b2 c →
      R (Bucket.new b2.count b2.upper_bound b1.lower_bound b2.repeats) c) :
    ∀ l : List Bucket, List.Chain' R l → List.Chain' R (mergePairs l)
  | [], _ => by simp [mergePairs]
  | [_], _ => by simp [mergePairs]
  | [_, _], _ => by simp [mergePairs]
  | [b1, b2, c], h => by
      rw [List.chain'_cons] at h
      obtain ⟨h12, h2c⟩ := h
      rw [List.chain'_cons] at h2c
      exact List.Chain'.cons (Hodd b1 b2 c h12 h2c.1) (List.chain'_singleton c)
  | b1 :: b2 :: c :: d :: rest, h => by
      rw [List.chain'_cons] at h
      obtain ⟨h12, h'⟩ := h
      rw [List.chain'_cons] at h'
      obtain ⟨h2c, h''⟩ := h'
      have hcd : R c d := (List.chain'_cons.mp h'').1
      have ih := chain'_mergePairs Hpair Hodd (c :: d :: rest) h''
      show List.Chain' R (Bucket.new b2.count b2.upper_bound b1.lower_bound b2.repeats
          :: Bucket.new d.count d.upper_bound c.lower_bound d.repeats :: mergePairs rest)
      rw [List.chain'_cons]
      exact ⟨Hpair b1 b2 c d h12 h2c hcd, ih⟩

/-! ### Helper lemmas about the branches of `iterate` -/

theorem repeatHit_true_iff {h : Histogram} {data : List Nat} :
    h.repeatHit data = true ↔ ∃ l b, h.buckets = l ++ [b] ∧ b.upper_bound = data := by
  unfold Histogram.repeatHit
  constructor
  · intro hr
    cases hl : h.buckets.getLast? with
    | none => rw [hl] at hr; simp at hr
    | some bucket =>
        rw [hl] at hr
        rw [List.getLast?_eq_some_iff] at hl
        obtain ⟨ys, hys⟩ := hl
        exact ⟨ys, bucket, hys, by simpa using hr⟩
  · rintro ⟨l, b, hb, hub⟩
    rw [hb, List.getLast?_concat]
    simpa using hub

theorem iterate_of_repeatHit {h : Histogram} {data : List Nat} {l : List Bucket} {b : Bucket}
    (hb : h.buckets = l ++ [b]) (hub : b.upper_bound = data) :
    h.iterate data = { h with buckets := l ++ [b.insert_repeated_item] } := by
  have hr : h.repeatHit data = true := repeatHit_true_iff.mpr ⟨l, b, hb, hub⟩
  simp [Histogram.iterate, hr, hb, updateLast_concat]

theorem iterate_of_miss {h : Histogram} {data : List Nat}
    (hr : h.repeatHit data = false) :
    h.iterate data =
      (({ h with ndv := h.ndv + 1 } : Histogram).afterCompaction).place data := by
  simp [Histogram.iterate, hr]

theorem afterCompaction_of_merge {h : Histogram}
    (hc : h.buckets_num ≤ h.buckets.length) (hf : h.is_last_bucket_full = true) :
    h.afterCompaction = h.merge_buckets := by
  simp [Histogram.afterCompaction, hc, hf]

theorem afterCompaction_of_no_merge {h : Histogram}
    (hc : ¬(h.buckets_num ≤ h.buckets.length ∧ h.is_last_bucket_full = true)) :
    h.afterCompaction = h := by
  unfold Histogram.afterCompaction
  rw [if_neg hc]

theorem place_of_full {h : Histogram} {data : List Nat}
    (hf : h.is_last_bucket_full = true) :
    h.place data = { h with buckets := h.buckets ++
      [Bucket.new (1 + (match h.buckets.getLast? with | some b => b.count | none => 0))
        data data 1] } := by
  simp [Histogram.place, hf]

theorem place_of_not_full {h : Histogram} {data : List Nat} {l : List Bucket} {b : Bucket}
    (hf : h.is_last_bucket_full = false) (hb : h.buckets = l ++ [b]) :
    h.place data = { h with buckets := l ++ [b.insert_item data] } := by
  simp [Histogram.place, hf, hb, updateLast_concat]

theorem buckets_ne_nil_of_not_full {h : Histogram}
    (hf : h.is_last_bucket_full = false) : h.buckets ≠ [] := by
  intro hnil
  unfold Histogram.is_last_bucket_full at hf
  rw [hnil] at hf
  simp at hf

theorem is_last_bucket_full_ndv (h : Histogram) (x : Int) :
    ({ h with ndv := x } : Histogram).is_last_bucket_full = h.is_last_bucket_full := rfl

/-! ### Frame lemmas: fields untouched by the individual steps -/

theorem afterCompaction_ndv (h : Histogram) : h.afterCompaction.ndv = h.ndv := by
  unfold Histogram.afterCompaction
  split <;> simp [Histogram.merge_buckets]

theorem afterCompaction_id (h : Histogram) : h.afterCompaction.id = h.id := by
  unfold Histogram.afterCompaction
  split <;> simp [Histogram.merge_buckets]

theorem afterCompaction_buckets_num (h : Histogram) :
    h.afterCompaction.buckets_num = h.buckets_num := by
  unfold Histogram.afterCompaction
  split <;> simp [Histogram.merge_buckets]

theorem place_ndv (h : Histogram) (d : List Nat) : (h.place d).ndv = h.ndv := by
  unfold Histogram.place
  split <;> simp

theorem place_id (h : Histogram) (d : List Nat) : (h.place d).id = h.id := by
  unfold Histogram.place
  split <;> simp

theorem place_buckets_num (h : Histogram) (d : List Nat) :
    (h.place d).buckets_num = h.buckets_num := by
  unfold Histogram.place
  split <;> simp

theorem place_per_bucket_limit (h : Histogram) (d : List Nat) :
    (h.place d).per_bucket_limit = h.per_bucket_limit := by
  unfold Histogram.place
  split <;> simp

theorem iterate_id (h : Histogram) (d : List Nat) : (h.iterate d).id = h.id := by
  unfold Histogram.iterate
  split
  · rfl
  · rw [place_id, afterCompaction_id]

theorem iterate_buckets_num (h : Histogram) (d : List Nat) :
    (h.iterate d).buckets_num = h.buckets_num := by
  unfold Histogram.iterate
  split
  · rfl
  · rw [place_buckets_num, afterCompaction_buckets_num]

theorem iterateAll_buckets_num (xs : List (List Nat)) :
    ∀ h : Histogram, (h.iterateAll xs).buckets_num = h.buckets_num := by
  induction xs with
  | nil => intro h; rfl
  | cons d ds ih =>
      intro h
      show ((h.iterate d).iterateAll ds).buckets_num = h.buckets_num
      rw [ih, iterate_buckets_num]

/-! ### C10: the unwrap in the placement step is safe -/

/-- Claim C10: `iterate` is total for every `buckets_num` (including 0) and
every input: when control reaches the placement step (the state is the
post-compaction state) and `is_last_bucket_full` returns false, the bucket
sequence is non-empty, so the `unwrap()` on `buckets.last_mut()` succeeds. -/
theorem C10_iterate_unwrap_safe (h : Histogram)
    (hfull : (({ h with ndv := h.ndv + 1 } : Histogram).afterCompaction).is_last_bucket_full
      = false) :
    (({ h with ndv := h.ndv + 1 } : Histogram).afterCompaction).buckets ≠ [] :=
  buckets_ne_nil_of_not_full hfull

/-- Witness for C10 at a concrete state whose single bucket is not full. -/
theorem C10_iterate_unwrap_safe_witness :
    ((({ ({ id := 1, ndv := 0, buckets := [Bucket.new 0 [] [] 0],
            per_bucket_limit := 1, buckets_num := 5 } : Histogram) with
        ndv := (0 : Int) + 1 } : Histogram).afterCompaction).buckets ≠ []) :=
  C10_iterate_unwrap_safe
    { id := 1, ndv := 0, buckets := [Bucket.new 0 [] [] 0],
      per_bucket_limit := 1, buckets_num := 5 } (by decide)

/-! ### C5: the fullness rule -/

/-- Claim C5: `is_last_bucket_full` returns true on an empty bucket
sequence; on one bucket it tests `bucket.count >= per_bucket_limit`; on two
or more buckets it tests `last.count - second_to_last.count >= per_bucket_limit`. -/
theorem C5_is_last_bucket_full_spec (h : Histogram) :
    (h.buckets = [] → h.is_last_bucket_full = true) ∧
    (∀ b, h.buckets = [b] →
      h.is_last_bucket_full = decide (h.per_bucket_limit ≤ b.count)) ∧
    (∀ a b, 2 ≤ h.buckets.length →
      h.buckets[h.buckets.length - 2]? = some a →
      h.buckets[h.buckets.length - 1]? = some b →
      h.is_last_bucket_full = decide (h.per_bucket_limit ≤ b.count - a.count)) := by
  refine ⟨?_, ?_, ?_⟩
  · intro hnil
    unfold Histogram.is_last_bucket_full
    rw [hnil]
    rfl
  · intro b hb
    unfold Histogram.is_last_bucket_full
    rw [hb]
    rfl
  · intro a b hlen ha hb
    have hrevne : h.buckets.reverse ≠ [] := by
      simp only [ne_eq, List.reverse_eq_nil_iff]
      intro hnil
      rw [hnil] at hlen
      simp at hlen
    obtain ⟨y, t, hyt⟩ := List.exists_cons_of_ne_nil hrevne
    have htne : t ≠ [] := by
      intro hnil
      have : h.buckets.reverse.length = 1 := by rw [hyt, hnil]; rfl
      rw [List.length_reverse] at this
      omega
    obtain ⟨z, t', hzt⟩ := List.exists_cons_of_ne_nil htne
    subst hzt
    have h0 : h.buckets.reverse[0]? = some y := by rw [hyt]; rfl
    have h1 : h.buckets.reverse[1]? = some z := by rw [hyt]; simp
    rw [List.getElem?_reverse (by rw [← List.length_reverse]; rw [hyt]; simp)] at h0
    rw [List.getElem?_reverse (by rw [← List.length_reverse]; rw [hyt]; simp)] at h1
    have hy : y = b := by
      rw [show h.buckets.length - 1 - 0 = h.buckets.length - 1 by omega] at h0
      rw [hb] at h0
      exact (Option.some.inj h0).symm
    have hz : z = a := by
      rw [show h.buckets.length - 1 - 1 = h.buckets.length - 2 by omega] at h1
      rw [ha] at h1
      exact (Option.some.inj h1).symm
    unfold Histogram.is_last_bucket_full
    rw [hyt, hy, hz]

/-- Witness for C5 on a two-bucket state: the last bucket holds
`3 - 1 = 2 >= per_bucket_limit = 2` items, so it reports full. -/
theorem C5_is_last_bucket_full_spec_witness :
    ({ id := 1, ndv := 2, buckets := [Bucket.new 1 [0] [0] 1, Bucket.new 3 [1] [1] 1],
       per_bucket_limit := 2, buckets_num := 3 } : Histogram).is_last_bucket_full
      = decide ((2 : Int) ≤ 3 - 1) :=
  (C5_is_last_bucket_full_spec _).2.2 (Bucket.new 1 [0] [0] 1) (Bucket.new 3 [1] [1] 1)
    (by decide) (by decide) (by decide)

/-! ### C4: the shape of merge_buckets -/

/-- Claim C4: `merge_buckets` collapses each left-to-right pair `(b_2i, b_2i+1)`
into one bucket taking `count`, `upper_bound`, `repeats` from the second and
`lower_bound` from the first; an odd trailing bucket is kept unchanged, so the
result has exactly `ceil(n/2) = (n+1)/2` buckets; `per_bucket_limit` doubles
and no other field of the builder changes. -/
theorem C4_merge_buckets_spec (h : Histogram) :
    (h.merge_buckets).buckets.length = (h.buckets.length + 1) / 2 ∧
    (h.merge_buckets).per_bucket_limit = h.per_bucket_limit * 2 ∧
    (h.merge_buckets).id = h.id ∧ (h.merge_buckets).ndv = h.ndv ∧
    (h.merge_buckets).buckets_num = h.buckets_num ∧
    (∀ i b1 b2, h.buckets[2 * i]? = some b1 → h.buckets[2 * i + 1]? = some b2 →
      (h.merge_buckets).buckets[i]? =
        some (Bucket.new b2.count b2.upper_bound b1.lower_bound b2.repeats)) ∧
    (h.buckets.length % 2 = 1 →
      (h.merge_buckets).buckets.getLast? = h.buckets.getLast?) :=
  ⟨mergePairs_length _, rfl, rfl, rfl, rfl,
    fun i b1 b2 h1 h2 => mergePairs_getElem? h.buckets i b1 b2 h1 h2,
    fun hodd => mergePairs_getLast?_odd h.buckets hodd⟩

/-- Witness for C4 on a three-bucket state: the first pair collapses, the
odd trailing bucket survives unchanged. -/
theorem C4_merge_buckets_spec_witness :
    (({ id := 7, ndv := 3, buckets :=
          [Bucket.new 1 [0] [0] 1, Bucket.new 2 [1] [1] 1, Bucket.new 3 [2] [2] 1],
        per_bucket_limit := 1, buckets_num := 3 } : Histogram).merge_buckets).buckets[0]?
      = some (Bucket.new 2 [1] [0] 1) ∧
    (({ id := 7, ndv := 3, buckets :=
          [Bucket.new 1 [0] [0] 1, Bucket.new 2 [1] [1] 1, Bucket.new 3 [2] [2] 1],
        per_bucket_limit := 1, buckets_num := 3 } : Histogram).merge_buckets).buckets.getLast?
      = some (Bucket.new 3 [2] [2] 1) := by
  constructor
  · exact (C4_merge_buckets_spec _).2.2.2.2.2.1 0 (Bucket.new 1 [0] [0] 1)
      (Bucket.new 2 [1] [1] 1) (by decide) (by decide)
  · rw [(C4_merge_buckets_spec _).2.2.2.2.2.2 (by decide)]
    decide

/-! ### C6: repeat absorption -/

/-- `k` consecutive repeats of the last bucket's boundary value only bump
that bucket's `count` and `repeats` by `k` (holds for every `k`, including 0). -/
theorem iterate_repeat_pow :
    ∀ (k : Nat) (h : Histogram) (l : List Bucket) (b : Bucket) (data : List Nat),
      h.buckets = l ++ [b] → b.upper_bound = data →
      h.iterateAll (List.replicate k data) =
        { h with buckets := l ++ [{ b with count := b.count + k, repeats := b.repeats + k }] }
  | 0, h, l, b, data, hb, hub => by
      show h = _
      rw [show ({ b with count := b.count + (0 : Nat), repeats := b.repeats + (0 : Nat) })
          = b by simp, ← hb]
  | k + 1, h, l, b, data, hb, hub => by
      rw [List.replicate_succ]
      show ((h.iterate data).iterateAll (List.replicate k data)) = _
      rw [iterate_of_repeatHit hb hub]
      rw [iterate_repeat_pow k _ l b.insert_repeated_item data rfl
        (by simp [Bucket.insert_repeated_item, hub])]
      simp only [Bucket.insert_repeated_item]
      have hcount : b.count + 1 + (k : Int) = b.count + ((k : Nat) + 1 : Nat) := by
        push_cast; ring
      have hrep : b.repeats + 1 + (k : Int) = b.repeats + ((k : Nat) + 1 : Nat) := by
        push_cast; ring
      rw [hcount, hrep]

/-- Claim C6: if the bucket sequence is non-empty and the last bucket's
`upper_bound` equals the ingested value, ingesting that value `k >= 1`
times in a row changes only the last bucket's `count` and `repeats`
(each by `k`): `ndv`, `per_bucket_limit`, `id`, `buckets_num`, the other
buckets and the last bucket's bounds are unchanged, and no bucket is
created or merged. -/
theorem C6_repeat_absorption (h : Histogram) (l : List Bucket) (b : Bucket)
    (data : List Nat) (k : Nat)
    (hb : h.buckets = l ++ [b]) (hub : b.upper_bound = data) (_hk : 1 ≤ k) :
    h.iterateAll (List.replicate k data) =
      { h with buckets := l ++ [{ b with count := b.count + k, repeats := b.repeats + k }] } :=
  iterate_repeat_pow k h l b data hb hub

/-- Witness for C6: two repeats of the boundary value `[5]`. -/
theorem C6_repeat_absorption_witness :
    ({ id := 1, ndv := 2, buckets := [Bucket.new 1 [2] [2] 1, Bucket.new 3 [5] [4] 2],
       per_bucket_limit := 2, buckets_num := 3 } : Histogram).iterateAll
        (List.replicate 2 [5])
      = { id := 1, ndv := 2,
          buckets := [Bucket.new 1 [2] [2] 1, Bucket.new 5 [5] [4] 4],
          per_bucket_limit := 2, buckets_num := 3 } := by
  have := C6_repeat_absorption
    { id := 1, ndv := 2, buckets := [Bucket.new 1 [2] [2] 1, Bucket.new 3 [5] [4] 2],
      per_bucket_limit := 2, buckets_num := 3 }
    [Bucket.new 1 [2] [2] 1] (Bucket.new 3 [5] [4] 2) [5] 2 (by decide) (by decide)
    (by decide)
  rw [this]
  decide

/-! ### C8: the doubling law for per_bucket_limit -/

theorem mergeFired_eq {h : Histogram} {d : List Nat} (hr : h.repeatHit d = false) :
    h.mergeFired d
      = decide (h.buckets_num ≤ h.buckets.length ∧ h.is_last_bucket_full = true) := by
  simp only [Histogram.mergeFired, hr, Bool.not_false, Bool.true_and]
  cases hfull : h.is_last_bucket_full <;>
    by_cases hlen : h.buckets_num ≤ h.buckets.length <;>
      simp [hlen, hfull]

/-- Each `iterate` call doubles `per_bucket_limit` exactly when its merge
fires, and leaves it unchanged otherwise. -/
theorem iterate_per_bucket_limit (h : Histogram) (d : List Nat) :
    (h.iterate d).per_bucket_limit =
      if h.mergeFired d then h.per_bucket_limit * 2 else h.per_bucket_limit := by
  cases hr : h.repeatHit d with
  | true =>
      have hffalse : h.mergeFired d = false := by simp [Histogram.mergeFired, hr]
      rw [hffalse]
      simp [Histogram.iterate, hr]
  | false =>
      rw [iterate_of_miss hr, place_per_bucket_limit, mergeFired_eq hr]
      by_cases hc : h.buckets_num ≤ h.buckets.length ∧ h.is_last_bucket_full = true
      · rw [afterCompaction_of_merge (h := { h with ndv := h.ndv + 1 }) hc.1 hc.2]
        rw [if_pos (decide_eq_true hc)]
        simp [Histogram.merge_buckets]
      · rw [afterCompaction_of_no_merge (h := { h with ndv := h.ndv + 1 }) (by exact hc)]
        rw [if_neg (by simpa using hc)]

theorem limit_iterateAll :
    ∀ (xs : List (List Nat)) (h : Histogram) (k : Nat),
      h.per_bucket_limit = 2 ^ k →
      (h.iterateAll xs).per_bucket_limit = 2 ^ (k + h.countMerges xs)
  | [], h, k, hk => by simpa [Histogram.iterateAll, Histogram.countMerges] using hk
  | d :: ds, h, k, hk => by
      show ((h.iterate d).iterateAll ds).per_bucket_limit = _
      cases hF : h.mergeFired d with
      | false =>
          have hstep : (h.iterate d).per_bucket_limit = 2 ^ k := by
            rw [iterate_per_bucket_limit, hF, if_neg (by simp), hk]
          rw [limit_iterateAll ds (h.iterate d) k hstep]
          simp [Histogram.countMerges, hF]
      | true =>
          have hstep : (h.iterate d).per_bucket_limit = 2 ^ (k + 1) := by
            rw [iterate_per_bucket_limit, hF, if_pos rfl, hk]
            ring
          rw [limit_iterateAll ds (h.iterate d) (k + 1) hstep]
          have : k + 1 + (h.iterate d).countMerges ds
              = k + h.countMerges (d :: ds) := by
            simp [Histogram.countMerges, hF]
            omega
          rw [this]

/-- Claim C8: starting from a fresh builder, after any input sequence
`per_bucket_limit` equals `2 ^ m` where `m` is the number of
`merge_buckets` executions performed so far (so it starts at `2 ^ 0 = 1`
and is always a power of two). -/
theorem C8_doubling_law (idv : Int) (bn : Nat) (xs : List (List Nat)) :
    ((Histogram.new idv bn).iterateAll xs).per_bucket_limit =
      2 ^ ((Histogram.new idv bn).countMerges xs) := by
  have := limit_iterateAll xs (Histogram.new idv bn) 0 (by simp [Histogram.new])
  simpa using this

/-! ### C1: bucket-count bound (corrected: needs buckets_num >= 2) -/

/-- Counterexample to claim C1 as stated: a builder with
`buckets_num = 1` (which satisfies the claim's `buckets_num >= 1`)
holds 2 buckets after ingesting `[0], [0], [1]` — the third `iterate`
call returns with the bucket count above `buckets_num`. -/
theorem C1_counterexample :
    (Histogram.new 1 1).buckets_num = 1 ∧
    ((Histogram.new 1 1).iterateAll [[0], [0], [1]]).buckets.length = 2 := by decide

theorem iterate_length_le {h : Histogram} (d : List Nat)
    (hbn : 2 ≤ h.buckets_num) (hlen : h.buckets.length ≤ h.buckets_num) :
    (h.iterate d).buckets.length ≤ h.buckets_num := by
  cases hr : h.repeatHit d with
  | true =>
      obtain ⟨l, b, hb, hub⟩ := repeatHit_true_iff.mp hr
      rw [iterate_of_repeatHit hb hub]
      simp only [List.length_append, List.length_cons, List.length_nil]
      rw [hb] at hlen
      simpa using hlen
  | false =>
      rw [iterate_of_miss hr]
      by_cases hc : h.buckets_num ≤ h.buckets.length ∧ h.is_last_bucket_full = true
      · rw [afterCompaction_of_merge (h := { h with ndv := h.ndv + 1 }) hc.1 hc.2]
        have hmlen : ({ h with ndv := h.ndv + 1 } : Histogram).merge_buckets.buckets.length
            = (h.buckets.length + 1) / 2 := mergePairs_length _
        have heq : h.buckets.length = h.buckets_num := le_antisymm hlen hc.1
        set h2 := ({ h with ndv := h.ndv + 1 } : Histogram).merge_buckets with hh2
        cases hf : h2.is_last_bucket_full with
        | false =>
            have hne := buckets_ne_nil_of_not_full hf
            rcases List.eq_nil_or_concat h2.buckets with hnil | ⟨l, b, hlb⟩
            · exact absurd hnil hne
            · rw [place_of_not_full hf (by rw [hlb, List.concat_eq_append])]
              have : l.length + 1 = h2.buckets.length := by
                rw [hlb]; simp
              simp only [List.length_append, List.length_cons, List.length_nil]
              omega
        | true =>
            rw [place_of_full hf]
            simp only [List.length_append, List.length_cons, List.length_nil]
            have : h2.buckets.length = (h.buckets.length + 1) / 2 := hmlen
            omega
      · rw [afterCompaction_of_no_merge (h := { h with ndv := h.ndv + 1 }) (by exact hc)]
        set h1 := ({ h with ndv := h.ndv + 1 } : Histogram) with hh1
        have hbuck : h1.buckets = h.buckets := rfl
        cases hf : h1.is_last_bucket_full with
        | false =>
            have hne := buckets_ne_nil_of_not_full hf
            rcases List.eq_nil_or_concat h1.buckets with hnil | ⟨l, b, hlb⟩
            · exact absurd hnil hne
            · rw [place_of_not_full hf (by rw [hlb, List.concat_eq_append])]
              have : l.length + 1 = h.buckets.length := by
                rw [← hbuck, hlb]; simp
              simp only [List.length_append, List.length_cons, List.length_nil]
              omega
        | true =>
            rw [place_of_full hf]
            have hlt : ¬ h.buckets_num ≤ h.buckets.length := by
              intro hle
              exact hc ⟨hle, hf⟩
            simp only [List.length_append, List.length_cons, List.length_nil, hbuck]
            omega

theorem length_le_iterateAll :
    ∀ (xs : List (List Nat)) (h : Histogram), 2 ≤ h.buckets_num →
      h.buckets.length ≤ h.buckets_num →
      (h.iterateAll xs).buckets.length ≤ h.buckets_num
  | [], h, _, hlen => hlen
  | d :: ds, h, hbn, hlen => by
      show ((h.iterate d).iterateAll ds).buckets.length ≤ h.buckets_num
      have hbn' : (h.iterate d).buckets_num = h.buckets_num := iterate_buckets_num h d
      have := length_le_iterateAll ds (h.iterate d) (by rw [hbn']; exact hbn)
        (by rw [hbn']; exact iterate_length_le d hbn hlen)
      rwa [hbn'] at this

/-- Claim C1 (amended): for a builder constructed with `buckets_num >= 2`,
after every `iterate` call the number of buckets is at most `buckets_num`.
(The claim's original bound `buckets_num >= 1` fails: see
`C1_counterexample`, where `buckets_num = 1` ends with 2 buckets.) -/
theorem C1_bucket_cap (idv : Int) (bn : Nat) (xs : List (List Nat)) (hbn : 2 ≤ bn) :
    ((Histogram.new idv bn).iterateAll xs).buckets.length ≤ bn :=
  length_le_iterateAll xs (Histogram.new idv bn) hbn (by simp [Histogram.new])

/-- Witness for the amended C1 at `buckets_num = 2` over a six-value input. -/
theorem C1_bucket_cap_witness :
    ((Histogram.new 1 2).iterateAll [[0], [1], [2], [2], [3], [4]]).buckets.length ≤ 2 :=
  C1_bucket_cap 1 2 [[0], [1], [2], [2], [3], [4]] (by decide)

/-! ### C2: monotone cumulative counts -/

theorem chain'_concat_map {R : Bucket → Bucket → Prop} {l : List Bucket} {b : Bucket}
    (f : Bucket → Bucket) (hf : ∀ a, R a b → R a (f b))
    (h : List.Chain' R (l ++ [b])) : List.Chain' R (l ++ [f b]) := by
  rw [List.chain'_append] at h ⊢
  refine ⟨h.1, List.chain'_singleton _, ?_⟩
  intro x hx y hy
  obtain rfl : f b = y := by simpa using hy
  exact hf x (h.2.2 x hx b (by simp))

theorem chain'_concat_push {R : Bucket → Bucket → Prop} {l : List Bucket} {b c : Bucket}
    (h : List.Chain' R (l ++ [b])) (hbc : R b c) :
    List.Chain' R ((l ++ [b]) ++ [c]) := by
  rw [List.chain'_append]
  refine ⟨h, List.chain'_singleton _, ?_⟩
  intro x hx y hy
  obtain rfl : c = y := by simpa using hy
  obtain rfl : b = x := by simpa [List.getLast?_concat] using hx
  exact hbc

theorem place_of_full_concat {h : Histogram} {data : List Nat} {l : List Bucket} {b : Bucket}
    (hf : h.is_last_bucket_full = true) (hb : h.buckets = l ++ [b]) :
    h.place data
      = { h with buckets := (l ++ [b]) ++ [Bucket.new (1 + b.count) data data 1] } := by
  rw [place_of_full hf, hb, List.getLast?_concat]

theorem is_last_bucket_full_of_nil {h : Histogram} (hb : h.buckets = []) :
    h.is_last_bucket_full = true := by
  unfold Histogram.is_last_bucket_full
  rw [hb]
  rfl

theorem place_of_full_nil {h : Histogram} {data : List Nat} (hb : h.buckets = []) :
    h.place data = { h with buckets := [Bucket.new 1 data data 1] } := by
  rw [place_of_full (is_last_bucket_full_of_nil hb), hb]
  norm_num

theorem place_count_inv {h : Histogram} {n : Nat} (d : List Nat) (hinv : countInv h n) :
    List.Chain' (fun x y => x.count ≤ y.count) ((h.place d).buckets) ∧
      ∃ l b, (h.place d).buckets = l ++ [b] ∧ b.count = ((n + 1 : Nat) : Int) := by
  obtain ⟨hchain, hlast⟩ := hinv
  cases hf : h.is_last_bucket_full with
  | false =>
      have hne := buckets_ne_nil_of_not_full hf
      rcases hlast with ⟨hnil, _⟩ | ⟨l, b, hb, hcnt⟩
      · exact absurd hnil hne
      · rw [place_of_not_full hf hb]
        refine ⟨?_, l, b.insert_item d, rfl, ?_⟩
        · rw [hb] at hchain
          show List.Chain' (fun x y => x.count ≤ y.count) (l ++ [b.insert_item d])
          refine chain'_concat_map (Bucket.insert_item · d) ?_ hchain
          intro a hab
          have hab' : a.count ≤ b.count := hab
          show a.count ≤ (b.insert_item d).count
          simp only [Bucket.insert_item]
          omega
        · simp [Bucket.insert_item]
          omega
  | true =>
      rcases hlast with ⟨hnil, hn0⟩ | ⟨l, b, hb, hcnt⟩
      · subst hn0
        rw [place_of_full_nil hnil]
        refine ⟨by simp, [], Bucket.new 1 d d 1, rfl, ?_⟩
        simp [Bucket.new]
      · rw [place_of_full_concat hf hb]
        refine ⟨?_, l ++ [b], Bucket.new (1 + b.count) d d 1, rfl, ?_⟩
        · rw [hb] at hchain
          show List.Chain' (fun x y => x.count ≤ y.count)
            ((l ++ [b]) ++ [Bucket.new (1 + b.count) d d 1])
          refine chain'_concat_push hchain ?_
          show b.count ≤ (Bucket.new (1 + b.count) d d 1).count
          simp only [Bucket.new]
          omega
        · simp [Bucket.new]
          omega

theorem afterCompaction_count_inv {h : Histogram} {n : Nat} (hinv : countInv h n) :
    countInv h.afterCompaction n := by
  unfold Histogram.afterCompaction
  split
  · obtain ⟨hchain, hlast⟩ := hinv
    constructor
    · show List.Chain' _ (mergePairs h.buckets)
      refine chain'_mergePairs ?_ ?_ _ hchain
      · intro b1 b2 c1 c2 h12 h2c hc12
        simp only [Bucket.new]
        exact le_trans h2c hc12
      · intro b1 b2 c h12 h2c
        simpa [Bucket.new] using h2c
    · rcases hlast with ⟨hnil, hn0⟩ | ⟨l, b, hb, hcnt⟩
      · left
        refine ⟨?_, hn0⟩
        show mergePairs h.buckets = []
        rw [hnil]
        rfl
      · right
        have hg : h.buckets.getLast? = some b := by
          rw [hb]; exact List.getLast?_concat l
        obtain ⟨b', hb', hceq, _, _⟩ := getLast?_mergePairs h.buckets b hg
        obtain ⟨l', hl'⟩ := List.getLast?_eq_some_iff.mp hb'
        exact ⟨l', b', hl', by rw [hceq, hcnt]⟩
  · exact hinv

theorem iterate_count_inv {h : Histogram} {n : Nat} (d : List Nat)
    (hinv : countInv h n) : countInv (h.iterate d) (n + 1) := by
  cases hr : h.repeatHit d with
  | true =>
      obtain ⟨l, b, hb, hub⟩ := repeatHit_true_iff.mp hr
      obtain ⟨hchain, hlast⟩ := hinv
      rw [iterate_of_repeatHit hb hub]
      constructor
      · show List.Chain' _ (l ++ [b.insert_repeated_item])
        rw [hb] at hchain
        refine chain'_concat_map Bucket.insert_repeated_item ?_ hchain
        intro a hab
        have hab' : a.count ≤ b.count := hab
        show a.count ≤ b.insert_repeated_item.count
        simp only [Bucket.insert_repeated_item]
        omega
      · right
        refine ⟨l, b.insert_repeated_item, rfl, ?_⟩
        rcases hlast with ⟨hnil, _⟩ | ⟨l', b', hb', hcnt⟩
        · rw [hnil] at hb
          exact absurd hb.symm (by simp)
        · have hbb : b' = b := by
            have h1 : h.buckets.getLast? = some b := by
              rw [hb]; exact List.getLast?_concat l
            have h2 : h.buckets.getLast? = some b' := by
              rw [hb']; exact List.getLast?_concat l'
            exact Option.some.inj (h2.symm.trans h1)
          subst hbb
          simp [Bucket.insert_repeated_item]
          omega
  | false =>
      rw [iterate_of_miss hr]
      have h1inv : countInv ({ h with ndv := h.ndv + 1 } : Histogram) n := by
        obtain ⟨hc, hl⟩ := hinv
        exact ⟨hc, hl⟩
      have h2inv := afterCompaction_count_inv h1inv
      have hp := place_count_inv d h2inv
      exact ⟨hp.1, Or.inr hp.2⟩

theorem countInv_iterateAll :
    ∀ (xs : List (List Nat)) (h : Histogram) (n : Nat),
      countInv h n → countInv (h.iterateAll xs) (n + xs.length)
  | [], h, n, hinv => by simpa using hinv
  | d :: ds, h, n, hinv => by
      show countInv ((h.iterate d).iterateAll ds) _
      have := countInv_iterateAll ds (h.iterate d) (n + 1) (iterate_count_inv d hinv)
      have heq : n + (d :: ds).length = n + 1 + ds.length := by
        simp
        omega
      rwa [heq]

/-- Claim C2: after any sequence of ingest calls on a fresh builder, bucket
counts are non-decreasing along the sequence, and the last bucket's `count`
(when a bucket exists) equals the total number of values ingested. -/
theorem C2_monotonic_counts (idv : Int) (bn : Nat) (xs : List (List Nat)) :
    List.Chain' (fun x y => x.count ≤ y.count)
      ((Histogram.new idv bn).iterateAll xs).buckets ∧
    (∀ b, ((Histogram.new idv bn).iterateAll xs).buckets.getLast? = some b →
      b.count = xs.length) := by
  have h0 : countInv (Histogram.new idv bn) 0 := ⟨by simp [Histogram.new], Or.inl ⟨rfl, rfl⟩⟩
  obtain ⟨hchain, hlast⟩ := countInv_iterateAll xs _ 0 h0
  refine ⟨hchain, ?_⟩
  intro b hb
  rcases hlast with ⟨hnil, _⟩ | ⟨l, b', hb', hcnt⟩
  · rw [hnil] at hb
    simp at hb
  · have hg : ((Histogram.new idv bn).iterateAll xs).buckets.getLast? = some b' := by
      rw [hb']; exact List.getLast?_concat l
    have hbb : b = b' := Option.some.inj (hb.symm.trans hg)
    subst hbb
    simpa using hcnt

/-- Witness for C2: after `[0], [0], [1]` the last bucket's count is 3. -/
theorem C2_monotonic_counts_witness :
    (Bucket.new 3 [1] [1] 1).count = (([[0], [0], [1]] : List (List Nat)).length : Int) :=
  (C2_monotonic_counts 1 3 [[0], [0], [1]]).2 (Bucket.new 3 [1] [1] 1) (by decide)

/-! ### C3: NDV accuracy -/

/-- Whatever the fullness situation, after `place` the bucket sequence ends
in a bucket whose `upper_bound` is the value just placed. -/
theorem place_lastUpper (h : Histogram) (d : List Nat) :
    ∃ l b, (h.place d).buckets = l ++ [b] ∧ b.upper_bound = d := by
  cases hf : h.is_last_bucket_full with
  | false =>
      have hne := buckets_ne_nil_of_not_full hf
      rcases List.eq_nil_or_concat h.buckets with hnil | ⟨l, b, hlb⟩
      · exact absurd hnil hne
      · rw [place_of_not_full hf (by rw [hlb, List.concat_eq_append])]
        exact ⟨l, b.insert_item d, rfl, rfl⟩
  | true =>
      rw [place_of_full hf]
      exact ⟨h.buckets, Bucket.new _ d d 1, rfl, rfl⟩

/-- One `iterate` call bumps `ndv` exactly when the value differs from the
previously ingested one (recorded as the last bucket's `upper_bound`), and
afterwards the last bucket's `upper_bound` is the new value. -/
theorem iterate_ndv_step {h : Histogram} {prev : List Nat} (d : List Nat)
    (hprev : ∃ l b, h.buckets = l ++ [b] ∧ b.upper_bound = prev) :
    (∃ l' b', (h.iterate d).buckets = l' ++ [b'] ∧ b'.upper_bound = d) ∧
      (h.iterate d).ndv = h.ndv + (if d = prev then 0 else 1) := by
  obtain ⟨l, b, hb, hub⟩ := hprev
  by_cases hd : d = prev
  · subst hd
    rw [iterate_of_repeatHit hb hub]
    exact ⟨⟨l, b.insert_repeated_item, rfl, hub⟩, by simp⟩
  · have hr : h.repeatHit d = false := by
      unfold Histogram.repeatHit
      rw [hb, List.getLast?_concat]
      simp only [beq_eq_false_iff_ne, ne_eq, hub]
      exact fun he => hd he.symm
    rw [iterate_of_miss hr]
    refine ⟨place_lastUpper _ d, ?_⟩
    rw [place_ndv, afterCompaction_ndv]
    simp [hd]

/-- The very first `iterate` call on an empty bucket sequence bumps `ndv`
and installs the value as the last `upper_bound`. -/
theorem iterate_ndv_first {h : Histogram} (d : List Nat) (hb : h.buckets = []) :
    (∃ l' b', (h.iterate d).buckets = l' ++ [b'] ∧ b'.upper_bound = d) ∧
      (h.iterate d).ndv = h.ndv + 1 := by
  have hr : h.repeatHit d = false := by
    unfold Histogram.repeatHit
    rw [hb]
    rfl
  rw [iterate_of_miss hr]
  exact ⟨place_lastUpper _ d, by rw [place_ndv, afterCompaction_ndv]⟩

theorem ndv_iterateAll :
    ∀ (xs : List (List Nat)) (h : Histogram) (prev : List Nat),
      (∃ l b, h.buckets = l ++ [b] ∧ b.upper_bound = prev) →
      (h.iterateAll xs).ndv = h.ndv + (countChanges prev xs : Int)
  | [], h, prev, _ => by simp [Histogram.iterateAll, countChanges]
  | d :: ds, h, prev, hprev => by
      show ((h.iterate d).iterateAll ds).ndv = _
      obtain ⟨hlast, hndv⟩ := iterate_ndv_step d hprev
      rw [ndv_iterateAll ds (h.iterate d) d hlast, hndv]
      simp only [countChanges]
      push_cast
      by_cases hd : d = prev
      · simp [hd]
      · simp [hd]
        ring

theorem ndv_eq_ndvOf (idv : Int) (bn : Nat) :
    ∀ xs : List (List Nat), ((Histogram.new idv bn).iterateAll xs).ndv = (ndvOf xs : Int)
  | [] => rfl
  | d :: ds => by
      show (((Histogram.new idv bn).iterate d).iterateAll ds).ndv = _
      obtain ⟨hlast, hndv⟩ := iterate_ndv_first d (h := Histogram.new idv bn) rfl
      rw [ndv_iterateAll ds _ d hlast, hndv]
      simp only [ndvOf]
      push_cast
      show (0 : Int) + 1 + _ = _
      ring

/-- On a non-decreasing input, counting changes of the running value counts
exactly the distinct values. -/
theorem ndvOf_eq_card_sorted :
    ∀ xs : List (List Nat), List.Chain' (· ≤ ·) xs → ndvOf xs = xs.toFinset.card
  | [], _ => rfl
  | [x], _ => by simp [ndvOf, countChanges]
  | x :: y :: ys, h => by
      rw [List.chain'_cons] at h
      obtain ⟨hxy, h'⟩ := h
      have ih := ndvOf_eq_card_sorted (y :: ys) h'
      by_cases hyx : y = x
      · have hnd : ndvOf (x :: y :: ys) = ndvOf (y :: ys) := by
          simp [ndvOf, countChanges, hyx]
        have hts : (x :: y :: ys).toFinset = (y :: ys).toFinset := by
          simp [List.toFinset_cons, hyx]
        rw [hnd, ih, hts]
      · have hxnotin : x ∉ (y :: ys).toFinset := by
          intro hmem
          simp only [List.toFinset_cons, Finset.mem_insert, List.mem_toFinset] at hmem
          rcases hmem with he | hmem
          · exact hyx he.symm
          · have hp : List.Pairwise (· ≤ ·) (y :: ys) := List.chain'_iff_pairwise.mp h'
            have hyx' : y ≤ x := (List.pairwise_cons.mp hp).1 x hmem
            exact hyx (le_antisymm hyx' hxy)
        have hnd : ndvOf (x :: y :: ys) = 1 + ndvOf (y :: ys) := by
          simp [ndvOf, countChanges, hyx]
        rw [hnd, ih]
        simp only [List.toFinset_cons] at hxnotin ⊢
        rw [Finset.card_insert_of_not_mem hxnotin]
        omega

/-- Claim C3: for input delivered in non-decreasing lexicographic order,
the final `ndv` equals the number of distinct byte strings ingested
(each call bumps `ndv` exactly when the value differs from the
immediately preceding one). -/
theorem C3_ndv_distinct (idv : Int) (bn : Nat) (xs : List (List Nat))
    (hsorted : List.Chain' (· ≤ ·) xs) :
    ((Histogram.new idv bn).iterateAll xs).ndv = (xs.toFinset.card : Int) := by
  rw [ndv_eq_ndvOf, ndvOf_eq_card_sorted xs hsorted]

/-- Witness for C3: `[0], [0], [1]` has 2 distinct values and yields ndv 2. -/
theorem C3_ndv_distinct_witness :
    ((Histogram.new 1 3).iterateAll [[0], [0], [1]]).ndv
      = (([[0], [0], [1]] : List (List Nat)).toFinset.card : Int) :=
  C3_ndv_distinct 1 3 [[0], [0], [1]]
    (List.chain'_cons.mpr ⟨by decide, List.chain'_pair.mpr (by decide)⟩)

/-! ### C7: strict ordering of bucket ranges and counts -/

theorem chain_bounds_mergePairs {l : List Bucket}
    (h : List.Chain' (fun x y => x.upper_bound < y.lower_bound ∧ x.count < y.count) l) :
    List.Chain' (fun x y => x.upper_bound < y.lower_bound ∧ x.count < y.count)
      (mergePairs l) := by
  refine chain'_mergePairs ?_ ?_ l h
  · intro b1 b2 c1 c2 h12 h2c hc12
    exact ⟨h2c.1, lt_trans h2c.2 hc12.2⟩
  · intro b1 b2 c h12 h2c
    exact ⟨h2c.1, h2c.2⟩

theorem afterCompaction_bounds {h : Histogram} {prev : List Nat}
    (hprev : ∃ l b, h.buckets = l ++ [b] ∧ b.upper_bound = prev)
    (hchain : List.Chain' (fun x y => x.upper_bound < y.lower_bound ∧ x.count < y.count)
      h.buckets) :
    (∃ l b, h.afterCompaction.buckets = l ++ [b] ∧ b.upper_bound = prev) ∧
      List.Chain' (fun x y => x.upper_bound < y.lower_bound ∧ x.count < y.count)
        h.afterCompaction.buckets := by
  unfold Histogram.afterCompaction
  split
  · obtain ⟨l, b, hb, hub⟩ := hprev
    constructor
    · have hg : h.buckets.getLast? = some b := by
        rw [hb]; exact List.getLast?_concat l
      obtain ⟨b', hb', _, hu, _⟩ := getLast?_mergePairs h.buckets b hg
      obtain ⟨l', hl'⟩ := List.getLast?_eq_some_iff.mp hb'
      exact ⟨l', b', hl', by rw [hu, hub]⟩
    · exact chain_bounds_mergePairs hchain
  · exact ⟨hprev, hchain⟩

theorem place_bounds {h : Histogram} {prev d : List Nat}
    (hlt : prev < d)
    (hprev : ∃ l b, h.buckets = l ++ [b] ∧ b.upper_bound = prev)
    (hchain : List.Chain' (fun x y => x.upper_bound < y.lower_bound ∧ x.count < y.count)
      h.buckets) :
    List.Chain' (fun x y => x.upper_bound < y.lower_bound ∧ x.count < y.count)
      (h.place d).buckets := by
  obtain ⟨l, b, hb, hub⟩ := hprev
  cases hf : h.is_last_bucket_full with
  | false =>
      rw [place_of_not_full hf hb]
      show List.Chain' _ (l ++ [b.insert_item d])
      rw [hb] at hchain
      refine chain'_concat_map (Bucket.insert_item · d) ?_ hchain
      intro a hab
      have hab' : a.upper_bound < b.lower_bound ∧ a.count < b.count := hab
      show a.upper_bound < (b.insert_item d).lower_bound ∧ a.count < (b.insert_item d).count
      refine ⟨hab'.1, ?_⟩
      simp only [Bucket.insert_item]
      omega
  | true =>
      rw [place_of_full_concat hf hb]
      show List.Chain' _ ((l ++ [b]) ++ [Bucket.new (1 + b.count) d d 1])
      rw [hb] at hchain
      refine chain'_concat_push hchain ?_
      show b.upper_bound < (Bucket.new (1 + b.count) d d 1).lower_bound ∧
        b.count < (Bucket.new (1 + b.count) d d 1).count
      constructor
      · rw [hub]
        exact hlt
      · simp only [Bucket.new]
        omega

theorem iterate_bounds_step {h : Histogram} {prev : List Nat} (d : List Nat)
    (hle : prev ≤ d)
    (hprev : ∃ l b, h.buckets = l ++ [b] ∧ b.upper_bound = prev)
    (hchain : List.Chain' (fun x y => x.upper_bound < y.lower_bound ∧ x.count < y.count)
      h.buckets) :
    (∃ l' b', (h.iterate d).buckets = l' ++ [b'] ∧ b'.upper_bound = d) ∧
      List.Chain' (fun x y => x.upper_bound < y.lower_bound ∧ x.count < y.count)
        (h.iterate d).buckets := by
  obtain ⟨l, b, hb, hub⟩ := hprev
  by_cases hd : d = prev
  · subst hd
    rw [iterate_of_repeatHit hb hub]
    refine ⟨⟨l, b.insert_repeated_item, rfl, hub⟩, ?_⟩
    show List.Chain' _ (l ++ [b.insert_repeated_item])
    rw [hb] at hchain
    refine chain'_concat_map Bucket.insert_repeated_item ?_ hchain
    intro a hab
    have hab' : a.upper_bound < b.lower_bound ∧ a.count < b.count := hab
    show a.upper_bound < b.insert_repeated_item.lower_bound ∧
      a.count < b.insert_repeated_item.count
    refine ⟨hab'.1, ?_⟩
    simp only [Bucket.insert_repeated_item]
    omega
  · have hlt : prev < d := lt_of_le_of_ne hle (fun he => hd he.symm)
    have hr : h.repeatHit d = false := by
      unfold Histogram.repeatHit
      rw [hb, List.getLast?_concat]
      simp only [beq_eq_false_iff_ne, ne_eq, hub]
      exact fun he => hd he.symm
    rw [iterate_of_miss hr]
    refine ⟨place_lastUpper _ d, ?_⟩
    obtain ⟨hprev', hchain'⟩ :=
      afterCompaction_bounds (h := { h with ndv := h.ndv + 1 }) ⟨l, b, hb, hub⟩ hchain
    exact place_bounds hlt hprev' hchain'

theorem iterate_bounds_first {h : Histogram} (d : List Nat) (hb : h.buckets = []) :
    (∃ l b, (h.iterate d).buckets = l ++ [b] ∧ b.upper_bound = d) ∧
      List.Chain' (fun x y => x.upper_bound < y.lower_bound ∧ x.count < y.count)
        (h.iterate d).buckets := by
  have hr : h.repeatHit d = false := by
    unfold Histogram.repeatHit
    rw [hb]
    rfl
  rw [iterate_of_miss hr]
  refine ⟨place_lastUpper _ d, ?_⟩
  have hafter : (({ h with ndv := h.ndv + 1 } : Histogram).afterCompaction).buckets = [] := by
    unfold Histogram.afterCompaction
    split
    · show mergePairs _ = []
      rw [show ({ h with ndv := h.ndv + 1 } : Histogram).buckets = h.buckets from rfl, hb]
      rfl
    · exact hb
  rw [place_of_full_nil hafter]
  show List.Chain' _ [Bucket.new 1 d d 1]
  simp

theorem bounds_iterateAll :
    ∀ (xs : List (List Nat)) (h : Histogram) (prev : List Nat),
      List.Chain' (· ≤ ·) (prev :: xs) →
      (∃ l b, h.buckets = l ++ [b] ∧ b.upper_bound = prev) →
      List.Chain' (fun x y => x.upper_bound < y.lower_bound ∧ x.count < y.count)
        h.buckets →
      List.Chain' (fun x y => x.upper_bound < y.lower_bound ∧ x.count < y.count)
        ((h.iterateAll xs).buckets)
  | [], _, _, _, _, hchain => hchain
  | d :: ds, h, prev, hsort, hprev, hchain => by
      rw [List.chain'_cons] at hsort
      obtain ⟨hpd, hsort'⟩ := hsort
      obtain ⟨hlast', hchain'⟩ := iterate_bounds_step d hpd hprev hchain
      exact bounds_iterateAll ds (h.iterate d) d hsort' hlast' hchain'

/-- Claim C7: when input arrives in non-decreasing lexicographic order,
every reachable state has strictly increasing bucket ranges and strictly
increasing cumulative counts: for consecutive buckets,
`upper_bound` of the left is lexicographically below `lower_bound` of the
right, and the left `count` is below the right `count`. -/
theorem C7_strict_bucket_order (idv : Int) (bn : Nat) (xs : List (List Nat))
    (hsorted : List.Chain' (· ≤ ·) xs) :
    List.Chain' (fun x y => x.upper_bound < y.lower_bound ∧ x.count < y.count)
      ((Histogram.new idv bn).iterateAll xs).buckets := by
  cases xs with
  | nil => simp [Histogram.iterateAll, Histogram.new]
  | cons d ds =>
      show List.Chain' _ (((Histogram.new idv bn).iterate d).iterateAll ds).buckets
      obtain ⟨hlast, hchain⟩ := iterate_bounds_first d (h := Histogram.new idv bn) rfl
      exact bounds_iterateAll ds _ d hsorted hlast hchain

/-- Witness for C7 over the sorted input `[0], [1], [2], [3]`. -/
theorem C7_strict_bucket_order_witness :
    List.Chain' (fun x y => x.upper_bound < y.lower_bound ∧ x.count < y.count)
      ((Histogram.new 1 3).iterateAll [[0], [1], [2], [3]]).buckets :=
  C7_strict_bucket_order 1 3 [[0], [1], [2], [3]]
    (List.chain'_cons.mpr ⟨by decide, List.chain'_cons.mpr ⟨by decide,
      List.chain'_pair.mpr (by decide)⟩⟩)

/-! ### C9: the reference scenario -/

/-- Claim C9: with `buckets_num = 3` and strictly increasing encoded values
`e0 < e1 < e2 < e3 < e4 < e5`, ingesting `e0,e1,e2` yields 3 buckets,
limit 1, ndv 3; ingesting `e3` merges down to 2 buckets with value ranges
`[e0,e1]` and `[e2,e3]`, limit 2, ndv 4; three further repeats of `e3`
change no bucket count, limit or ndv; four ingests of `e4` grow a third
bucket holding `e4` with count contribution 4 and `repeats = 4`
(the spec text draws five occurrences of the value there, but only four
are ingested), ndv 5, limit still 2; one final `e5` merges again: 3
buckets, limit 4, ndv 6. -/
theorem C9_reference_scenario (idv : Int) (e0 e1 e2 e3 e4 e5 : List Nat)
    (h01 : e0 < e1) (h12 : e1 < e2) (h23 : e2 < e3) (h34 : e3 < e4) (h45 : e4 < e5) :
    ((Histogram.new idv 3).iterateAll [e0, e1, e2]).buckets.length = 3 ∧
    ((Histogram.new idv 3).iterateAll [e0, e1, e2]).per_bucket_limit = 1 ∧
    ((Histogram.new idv 3).iterateAll [e0, e1, e2]).ndv = 3 ∧
    ((Histogram.new idv 3).iterateAll [e0, e1, e2, e3]).buckets
      = [Bucket.new 2 e1 e0 1, Bucket.new 4 e3 e2 1] ∧
    ((Histogram.new idv 3).iterateAll [e0, e1, e2, e3]).per_bucket_limit = 2 ∧
    ((Histogram.new idv 3).iterateAll [e0, e1, e2, e3]).ndv = 4 ∧
    ((Histogram.new idv 3).iterateAll [e0, e1, e2, e3, e3, e3, e3]).buckets.length = 2 ∧
    ((Histogram.new idv 3).iterateAll [e0, e1, e2, e3, e3, e3, e3]).per_bucket_limit = 2 ∧
    ((Histogram.new idv 3).iterateAll [e0, e1, e2, e3, e3, e3, e3]).ndv = 4 ∧
    ((Histogram.new idv 3).iterateAll
        [e0, e1, e2, e3, e3, e3, e3, e4, e4, e4, e4]).buckets
      = [Bucket.new 2 e1 e0 1, Bucket.new 7 e3 e2 4, Bucket.new 11 e4 e4 4] ∧
    ((Histogram.new idv 3).iterateAll
        [e0, e1, e2, e3, e3, e3, e3, e4, e4, e4, e4]).ndv = 5 ∧
    ((Histogram.new idv 3).iterateAll
        [e0, e1, e2, e3, e3, e3, e3, e4, e4, e4, e4]).per_bucket_limit = 2 ∧
    ((Histogram.new idv 3).iterateAll
        [e0, e1, e2, e3, e3, e3, e3, e4, e4, e4, e4, e5]).buckets.length = 3 ∧
    ((Histogram.new idv 3).iterateAll
        [e0, e1, e2, e3, e3, e3, e3, e4, e4, e4, e4, e5]).per_bucket_limit = 4 ∧
    ((Histogram.new idv 3).iterateAll
        [e0, e1, e2, e3, e3, e3, e3, e4, e4, e4, e4, e5]).ndv = 6 := by
  have n01 : ¬ e0 = e1 := ne_of_lt h01
  have n12 : ¬ e1 = e2 := ne_of_lt h12
  have n23 : ¬ e2 = e3 := ne_of_lt h23
  have n34 : ¬ e3 = e4 := ne_of_lt h34
  have n45 : ¬ e4 = e5 := ne_of_lt h45
  refine ⟨?_, ?_, ?_, ?_, ?_, ?_, ?_, ?_, ?_, ?_, ?_, ?_, ?_, ?_, ?_⟩ <;>
    simp [Histogram.iterateAll, Histogram.iterate, Histogram.repeatHit,
      Histogram.afterCompaction, Histogram.place, Histogram.is_last_bucket_full,
      Histogram.merge_buckets, mergePairs, updateLast, Bucket.insert_item,
      Bucket.insert_repeated_item, Bucket.new, Histogram.new, n01, n12, n23, n34, n45]

/-- Witness for C9 at the concrete encoded values `[0] < [1] < ... < [5]`. -/
theorem C9_reference_scenario_witness :
    ((Histogram.new 1 3).iterateAll [[0], [1], [2]]).buckets.length = 3 ∧
    ((Histogram.new 1 3).iterateAll [[0], [1], [2]]).per_bucket_limit = 1 ∧
    ((Histogram.new 1 3).iterateAll [[0], [1], [2]]).ndv = 3 ∧
    ((Histogram.new 1 3).iterateAll [[0], [1], [2], [3]]).buckets
      = [Bucket.new 2 [1] [0] 1, Bucket.new 4 [3] [2] 1] ∧
    ((Histogram.new 1 3).iterateAll [[0], [1], [2], [3]]).per_bucket_limit = 2 ∧
    ((Histogram.new 1 3).iterateAll [[0], [1], [2], [3]]).ndv = 4 ∧
    ((Histogram.new 1 3).iterateAll [[0], [1], [2], [3], [3], [3], [3]]).buckets.length = 2 ∧
    ((Histogram.new 1 3).iterateAll [[0], [1], [2], [3], [3], [3], [3]]).per_bucket_limit = 2 ∧
    ((Histogram.new 1 3).iterateAll [[0], [1], [2], [3], [3], [3], [3]]).ndv = 4 ∧
    ((Histogram.new 1 3).iterateAll
        [[0], [1], [2], [3], [3], [3], [3], [4], [4], [4], [4]]).buckets
      = [Bucket.new 2 [1] [0] 1, Bucket.new 7 [3] [2] 4, Bucket.new 11 [4] [4] 4] ∧
    ((Histogram.new 1 3).iterateAll
        [[0], [1], [2], [3], [3], [3], [3], [4], [4], [4], [4]]).ndv = 5 ∧
    ((Histogram.new 1 3).iterateAll
        [[0], [1], [2], [3], [3], [3], [3], [4], [4], [4], [4]]).per_bucket_limit = 2 ∧
    ((Histogram.new 1 3).iterateAll
        [[0], [1], [2], [3], [3], [3], [3], [4], [4], [4], [4], [5]]).buckets.length = 3 ∧
    ((Histogram.new 1 3).iterateAll
        [[0], [1], [2], [3], [3], [3], [3], [4], [4], [4], [4], [5]]).per_bucket_limit = 4 ∧
    ((Histogram.new 1 3).iterateAll
        [[0], [1], [2], [3], [3], [3], [3], [4], [4], [4], [4], [5]]).ndv = 6 :=
  C9_reference_scenario 1 [0] [1] [2] [3] [4] [5]
    (by decide) (by decide) (by decide) (by decide) (by decide)
